import Mathlib

/-!
Verification of the Agenda-Detect analysis core against its specification.

The development shallowly embeds the TypeScript services of the repository:

* `src/services/localLLMService.ts` — the JSON extraction helper
  `parseLLMJson` (a single regex alternation followed by `JSON.parse`),
  the `generate` adapter and `runAutomatedSearch`;
* `src/services/localAnalysisService.ts` — the fixed four-stage analysis
  orchestrator `runAnalysis` and the historical-data slice of
  `executeMotiveCheck`;
* `src/services/geminiService.ts` — the plan re-ordering of `generatePlan`
  and the tool-dispatch loop of the plan-driven `runAnalysis`;
* the top-level application state handlers (`handleDeleteSubject`,
  `handleRunAnalysis` with its progress list).

JavaScript JSON values are modelled by the inductive type `Json`; numbers
are restricted to integers (the repository only round-trips integral
numbers and the claims under verification do not involve fractional
values). Strings are modelled as lists of characters. The `JSON.stringify`
and `JSON.parse` built-ins are modelled by `jsonStringify` and `jsonParse`;
network and LLM effects are modelled by explicit outcome parameters.
-/

/-- Model of a JavaScript JSON value. Object members keep insertion order. -/
inductive Json where
  | null : Json
  | bool (b : Bool) : Json
  | num (n : Int) : Json
  | str (s : List Char) : Json
  | arr (elems : List Json) : Json
  | obj (members : List (List Char × Json)) : Json

/-- Tests whether a JSON value is a string. -/
def Json.isStr : Json → Bool
  | .str _ => true
  | _ => false

/-- Tests whether a JSON value is an array. -/
def Json.isArr : Json → Bool
  | .arr _ => true
  | _ => false

/-- Decimal digits of a natural number, most significant digit first,
without leading zeros (`"0"` for zero), as emitted by `JSON.stringify`. -/
def natDigits (n : Nat) : List Char :=
  if _h : n < 10 then [Char.ofNat (48 + n)]
  else natDigits (n / 10) ++ [Char.ofNat (48 + n % 10)]
termination_by n
decreasing_by exact Nat.div_lt_self (by omega) (by omega)

/-- Decimal rendering of an integer, as emitted by `JSON.stringify`. -/
def intChars : Int → List Char
  | .ofNat n => natDigits n
  | .negSucc m => '-' :: natDigits (m + 1)

/-- Lowercase hexadecimal digit for a value below 16. -/
def hexDigitChar (n : Nat) : Char :=
  if n < 10 then Char.ofNat (48 + n) else Char.ofNat (87 + n)

/-- Escape of one character inside a JSON string literal, following
`JSON.stringify`: the two-character escapes for quote, backslash and the
named control characters, `\u00XX` for the remaining control characters,
and the character itself otherwise. -/
def escChar (c : Char) : List Char :=
  if c = '"' then ['\\', '"']
  else if c = '\\' then ['\\', '\\']
  else if c = '\x08' then ['\\', 'b']
  else if c = '\t' then ['\\', 't']
  else if c = '\n' then ['\\', 'n']
  else if c = '\x0c' then ['\\', 'f']
  else if c = '\r' then ['\\', 'r']
  else if c.toNat < 32 then
    ['\\', 'u', '0', '0', hexDigitChar (c.toNat / 16), hexDigitChar (c.toNat % 16)]
  else [c]

/-- Escape of a whole string body, character by character. -/
def escChars : List Char → List Char
  | [] => []
  | c :: t => escChar c ++ escChars t

mutual

/-- Model of `JSON.stringify` (compact form, no indentation). -/
def jsonStringify : Json → List Char
  | .null => "null".data
  | .bool true => "true".data
  | .bool false => "false".data
  | .num n => intChars n
  | .str s => '"' :: escChars s ++ ['"']
  | .arr xs => '[' :: stringifyElems xs ++ [']']
  | .obj kvs => '\x7b' :: stringifyMembers kvs ++ ['\x7d']

/-- Comma-separated renderings of array elements. -/
def stringifyElems : List Json → List Char
  | [] => []
  | x :: xs => jsonStringify x ++ stringifyElemsTail xs

/-- Renderings of the array elements after the first, each preceded by a
comma. -/
def stringifyElemsTail : List Json → List Char
  | [] => []
  | x :: xs => ',' :: (jsonStringify x ++ stringifyElemsTail xs)

/-- Comma-separated renderings of object members. -/
def stringifyMembers : List (List Char × Json) → List Char
  | [] => []
  | (k, v) :: kvs =>
      '"' :: (escChars k ++ '"' :: ':' :: jsonStringify v) ++ stringifyMembersTail kvs

/-- Renderings of the object members after the first, each preceded by a
comma. -/
def stringifyMembersTail : List (List Char × Json) → List Char
  | [] => []
  | (k, v) :: kvs =>
      ',' :: '"' :: (escChars k ++ '"' :: ':' :: jsonStringify v) ++ stringifyMembersTail kvs

end

/-- Whitespace accepted between JSON tokens by `JSON.parse`. -/
def isJsonWs (c : Char) : Bool :=
  c = ' ' || c = '\t' || c = '\n' || c = '\r'

/-- Skips token-separating whitespace. -/
def skipWs (cs : List Char) : List Char :=
  cs.dropWhile isJsonWs

/-- Tests for a decimal digit. -/
def isDigitChar (c : Char) : Bool :=
  48 ≤ c.toNat && c.toNat ≤ 57

/-- Numeric value of a decimal digit. -/
def digitVal (c : Char) : Nat :=
  c.toNat - 48

/-- Value of a digit sequence, accumulated left to right. -/
def digitsVal (acc : Nat) : List Char → Nat
  | [] => acc
  | c :: t => digitsVal (acc * 10 + digitVal c) t

/-- Numeric value of a hexadecimal digit, if any. -/
def hexVal (c : Char) : Option Nat :=
  if 48 ≤ c.toNat && c.toNat ≤ 57 then some (c.toNat - 48)
  else if 97 ≤ c.toNat && c.toNat ≤ 102 then some (c.toNat - 87)
  else if 65 ≤ c.toNat && c.toNat ≤ 70 then some (c.toNat - 55)
  else none

/-- Character denoted by a two-character string escape, if the escape is
one of the simple ones accepted by `JSON.parse`. -/
def escCode (c : Char) : Option Char :=
  if c = '"' then some '"'
  else if c = '\\' then some '\\'
  else if c = '/' then some '/'
  else if c = 'b' then some '\x08'
  else if c = 'f' then some '\x0c'
  else if c = 'n' then some '\n'
  else if c = 'r' then some '\r'
  else if c = 't' then some '\t'
  else none

/-- Body of a JSON string literal after the opening quote: returns the
decoded characters and the input after the closing quote. Raw control
characters are rejected, as by `JSON.parse`. -/
def parseStringBody (cs : List Char) : Option (List Char × List Char) :=
  match cs with
  | [] => none
  | c :: t =>
    if c = '"' then some ([], t)
    else if c = '\\' then
      match t with
      | [] => none
      | e :: t' =>
        if e = 'u' then
          match t' with
          | h1 :: h2 :: h3 :: h4 :: t'' =>
            match hexVal h1, hexVal h2, hexVal h3, hexVal h4 with
            | some a, some b, some c2, some d =>
              (parseStringBody t'').map fun p =>
                (Char.ofNat (((a * 16 + b) * 16 + c2) * 16 + d) :: p.1, p.2)
            | _, _, _, _ => none
          | _ => none
        else
          match escCode e with
          | some r => (parseStringBody t').map fun p => (r :: p.1, p.2)
          | none => none
    else if c.toNat < 32 then none
    else (parseStringBody t).map fun p => (c :: p.1, p.2)
termination_by structural cs

/-- Maximal run of decimal digits as a natural number, rejecting an empty
run and a redundant leading zero, as `JSON.parse` does. -/
def parseNatNum (cs : List Char) : Option (Nat × List Char) :=
  let ds := cs.takeWhile isDigitChar
  if ds.isEmpty then none
  else if 1 < ds.length ∧ ds.head? = some '0' then none
  else some (digitsVal 0 ds, cs.dropWhile isDigitChar)

/-- Integer literal with an optional leading minus sign. -/
def parseNumber (cs : List Char) : Option (Json × List Char) :=
  match cs with
  | [] => none
  | c :: t =>
    if c = '-' then (parseNatNum t).map fun p => (Json.num (-(p.1 : Int)), p.2)
    else (parseNatNum (c :: t)).map fun p => (Json.num (p.1 : Int), p.2)

/-- Consumes an expected literal character sequence. -/
def expectChars (lit : List Char) (cs : List Char) : Option (List Char) :=
  if lit.isPrefixOf cs then some (cs.drop lit.length) else none

mutual

/-- Model of the `JSON.parse` value grammar. The fuel argument bounds the
recursion depth; `jsonParse` supplies enough fuel for any input. -/
def parseV (fuelA : Nat) (csA : List Char) : Option (Json × List Char) :=
  match fuelA, csA with
  | 0, _ => none
  | fuel + 1, cs =>
    match skipWs cs with
    | [] => none
    | c :: t =>
      if c = 'n' then (expectChars ("ull".data) t).map fun r => (Json.null, r)
      else if c = 't' then (expectChars ("rue".data) t).map fun r => (Json.bool true, r)
      else if c = 'f' then (expectChars ("alse".data) t).map fun r => (Json.bool false, r)
      else if c = '"' then (parseStringBody t).map fun p => (Json.str p.1, p.2)
      else if c = '[' then (parseArrBody fuel t).map fun p => (Json.arr p.1, p.2)
      else if c = '\x7b' then (parseObjBody fuel t).map fun p => (Json.obj p.1, p.2)
      else if c = '-' || isDigitChar c then parseNumber (c :: t)
      else none
termination_by structural fuelA

/-- Array elements after the opening bracket. -/
def parseArrBody (fuelA : Nat) (csA : List Char) : Option (List Json × List Char) :=
  match fuelA, csA with
  | 0, _ => none
  | fuel + 1, cs =>
    match skipWs cs with
    | [] => none
    | c :: t =>
      if c = ']' then some ([], t)
      else
        match parseV fuel cs with
        | none => none
        | some (v, r) =>
          match parseArrTail fuel r with
          | none => none
          | some (vs, r2) => some (v :: vs, r2)
termination_by structural fuelA

/-- Array continuation after a parsed element: a closing bracket or a comma
followed by further elements. -/
def parseArrTail (fuelA : Nat) (csA : List Char) : Option (List Json × List Char) :=
  match fuelA, csA with
  | 0, _ => none
  | fuel + 1, cs =>
    match skipWs cs with
    | [] => none
    | c :: t =>
      if c = ']' then some ([], t)
      else if c = ',' then
        match parseV fuel t with
        | none => none
        | some (v, r) =>
          match parseArrTail fuel r with
          | none => none
          | some (vs, r2) => some (v :: vs, r2)
      else none
termination_by structural fuelA

/-- Object members after the opening brace. -/
def parseObjBody (fuelA : Nat) (csA : List Char) : Option (List (List Char × Json) × List Char) :=
  match fuelA, csA with
  | 0, _ => none
  | fuel + 1, cs =>
    match skipWs cs with
    | [] => none
    | c :: t =>
      if c = '\x7d' then some ([], t)
      else if c = '"' then
        match parseStringBody t with
        | none => none
        | some (k, r) =>
          match skipWs r with
          | [] => none
          | c2 :: r2 =>
            if c2 = ':' then
              match parseV fuel r2 with
              | none => none
              | some (v, r3) =>
                match parseObjTail fuel r3 with
                | none => none
                | some (kvs, r4) => some ((k, v) :: kvs, r4)
            else none
      else none
termination_by structural fuelA

/-- Object continuation after a parsed member: a closing brace or a comma
followed by further members. -/
def parseObjTail (fuelA : Nat) (csA : List Char) : Option (List (List Char × Json) × List Char) :=
  match fuelA, csA with
  | 0, _ => none
  | fuel + 1, cs =>
    match skipWs cs with
    | [] => none
    | c :: t =>
      if c = '\x7d' then some ([], t)
      else if c = ',' then
        match skipWs t with
        | [] => none
        | c2 :: t2 =>
          if c2 = '"' then
            match parseStringBody t2 with
            | none => none
            | some (k, r) =>
              match skipWs r with
              | [] => none
              | c3 :: r2 =>
                if c3 = ':' then
                  match parseV fuel r2 with
                  | none => none
                  | some (v, r3) =>
                    match parseObjTail fuel r3 with
                    | none => none
                    | some (kvs, r4) => some ((k, v) :: kvs, r4)
                else none
          else none
      else none
termination_by structural fuelA

end

/-- Model of `JSON.parse`: parses one value surrounded by optional
whitespace, requiring the whole input to be consumed. Returns `none` where
`JSON.parse` would throw a syntax error. -/
def jsonParse (cs : List Char) : Option Json :=
  match parseV (cs.length + 1) cs with
  | some (v, rest) => if (skipWs rest).isEmpty then some v else none
  | none => none

mutual

/-- Fuel sufficient for `parseV` to parse the rendering of a value. -/
def needV : Json → Nat
  | .null => 1
  | .bool _ => 1
  | .num _ => 1
  | .str _ => 1
  | .arr xs => needElems xs + 1
  | .obj kvs => needMembers kvs + 1

/-- Fuel sufficient for `parseArrBody` and `parseArrTail` on rendered
element lists. -/
def needElems : List Json → Nat
  | [] => 1
  | x :: xs => max (needV x) (needElems xs) + 1

/-- Fuel sufficient for `parseObjBody` and `parseObjTail` on rendered
member lists. -/
def needMembers : List (List Char × Json) → Nat
  | [] => 1
  | (_, v) :: kvs => max (needV v) (needMembers kvs) + 1

end

/-- Holds when the input does not continue with a decimal digit, so that a
maximal digit run ending right before it stays maximal. -/
def noDigitHead (cs : List Char) : Bool :=
  match cs with
  | [] => true
  | c :: _ => !(isDigitChar c)

/-- Splits the input at the first occurrence of the pattern: the part
before the occurrence and the part after it. Models a lazy regex search
for a literal sequence. -/
def splitAtSeq (pat : List Char) : List Char → Option (List Char × List Char)
  | [] => if pat.isPrefixOf ([] : List Char) then some ([], []) else none
  | c :: t =>
    if pat.isPrefixOf (c :: t) then some ([], (c :: t).drop pat.length)
    else (splitAtSeq pat t).map fun p => (c :: p.1, p.2)

/-- Tests whether the pattern occurs somewhere in the input. -/
def containsSeq (pat cs : List Char) : Bool :=
  (splitAtSeq pat cs).isSome

/-- Input through the last occurrence of the given character, inclusive.
Models the greedy part of the bare-object and bare-array regex
alternatives. Meaningful when the character occurs. -/
def takeThroughLast (c : Char) (cs : List Char) : List Char :=
  (cs.reverse.dropWhile fun d => !(d == c)).reverse

/-- Opening of a fenced JSON code block in the `parseLLMJson` regex. -/
def fenceOpen : List Char := "```json\n".data

/-- Closing sequence of a fenced JSON code block. -/
def fenceClose : List Char := "\n```".data

/-- Model of the single regex alternation of `parseLLMJson`
(`src/services/localLLMService.ts`, line 15).

The JavaScript engine scans positions left to right and at each position
tries the three alternatives; since their first characters (backtick,
opening brace, opening bracket) are pairwise distinct, at most one
alternative can start at a given position. The fenced alternative captures
lazily up to the first closing fence; the brace and bracket alternatives
capture greedily up to the last closing brace or bracket. Returns the
captured group of the leftmost match, or `none` when the regex does not
match. -/
def extractScan : List Char → Option (List Char)
  | [] => none
  | c :: t =>
    if fenceOpen.isPrefixOf (c :: t) then
      match splitAtSeq fenceClose ((c :: t).drop fenceOpen.length) with
      | some p => some p.1
      | none => extractScan t
    else if c = '\x7b' then
      if '\x7d' ∈ t then some ('\x7b' :: takeThroughLast '\x7d' t) else extractScan t
    else if c = '[' then
      if ']' ∈ t then some ('[' :: takeThroughLast ']' t) else extractScan t
    else extractScan t

/-- Message of the error thrown when `parseLLMJson` fails. The raw text is
only written to the console, not carried by the error. -/
def malformedMsg : String :=
  "The local model returned an invalid JSON format."

/-- Model of `parseLLMJson` (`src/services/localLLMService.ts`, lines
13 to 29): run the regex; when it matched with a nonempty captured group,
parse the capture; otherwise (no match, or an empty fenced capture, which
is falsy in JavaScript) parse the whole text; any parse failure is caught
and rethrown as a single fixed-message error. -/
def parseLLMJson (cs : List Char) : Except String Json :=
  match extractScan cs with
  | some cap =>
    if cap.isEmpty then
      match jsonParse cs with
      | some v => .ok v
      | none => .error malformedMsg
    else
      match jsonParse cap with
      | some v => .ok v
      | none => .error malformedMsg
  | none =>
    match jsonParse cs with
    | some v => .ok v
    | none => .error malformedMsg

/-- Message of the error thrown by `runAutomatedSearch` when the parsed
response is not an array. -/
def unexpectedFormatMsg : String :=
  "Automated search returned data in an unexpected format."

/-- Client-side record built by `runAutomatedSearch` from one element of
the parsed array: the element itself spread into a new object, an
identifier from the id generator, and status `indexed`. -/
structure SearchDoc where
  base : Json
  id : String
  status : String

/-- Model of `runAutomatedSearch` (`src/services/localLLMService.ts`,
lines 75 to 105) after the LLM reply text is in hand: parse the reply,
throw the unexpected-format error when the parsed value is not an array,
otherwise build one client-side record per element. The nondeterministic
`Date.now`/`Math.random` identifier is modelled by the `mkId` parameter. -/
def runAutomatedSearchModel (responseText : List Char) (mkId : Nat → String) :
    Except String (List SearchDoc) :=
  match parseLLMJson responseText with
  | .error e => .error e
  | .ok v =>
    match v with
    | .arr xs => .ok (xs.mapIdx fun i x => ⟨x, mkId i, "indexed"⟩)
    | _ => .error unexpectedFormatMsg

/-- Connection settings of the local LLM service. -/
structure LLMSettings where
  endpoint : String
  model : String

/-- Body of the HTTP POST request issued by `generate`. -/
structure RequestBody where
  model : String
  prompt : String
  stream : Bool
  format : Option String

/-- Outcome of one `fetch` call, supplied as an oracle: a transport
failure (the promise rejects), or a response with its HTTP success flag,
status code, body text, and the `response` field of the body when that
field is a string. -/
inductive FetchOutcome where
  | transportFailure (msg : String) : FetchOutcome
  | response (ok : Bool) (status : Nat) (bodyText : String)
      (respField : Option String) : FetchOutcome

/-- Message of the error thrown by `generate` when endpoint or model is
not configured. -/
def notConfiguredMsg : String :=
  "LLM service not configured. Please set endpoint and model in Settings."

/-- Model of `generate` (`src/services/localLLMService.ts`, lines 32 to
73). Returns the produced text or the thrown error message, together with
the list of HTTP requests actually issued. -/
def generateModel (settings : LLMSettings) (prompt : String) (expectJson : Bool)
    (fetch2 : RequestBody → FetchOutcome) : Except String String × List RequestBody :=
  if settings.endpoint = "" ∨ settings.model = "" then
    (.error notConfiguredMsg, [])
  else
    let body : RequestBody :=
      ⟨settings.model, prompt, false, if expectJson then some "json" else none⟩
    match fetch2 body with
    | .transportFailure msg =>
      if containsSeq ("Failed to fetch".data) msg.data then
        (.error ("Could not connect to the local LLM endpoint at " ++ settings.endpoint
          ++ ". Please ensure the server is running and the endpoint is correct."), [body])
      else
        (.error msg, [body])
    | .response ok status bodyText respField =>
      if !ok then
        (.error ("Local LLM API error (" ++ toString status ++ "): " ++ bodyText), [body])
      else
        match respField with
        | some s => (.ok s.trim, [body])
        | none => (.error "Unexpected response structure from local LLM API.", [body])

/-- Status values passed to the progress callback. -/
inductive CallbackStatus where
  | running : CallbackStatus
  | completed : CallbackStatus
  | error : CallbackStatus
  deriving DecidableEq

/-- One invocation of the progress callback: stage name and status. The
optional details payload carries no information used by the claims and is
omitted. -/
structure ProgressEvent where
  name : String
  status : CallbackStatus
  deriving DecidableEq

/-- Result of the linguistic-analysis stage
(`executeLinguisticAnalysis` in `localAnalysisService.ts`). -/
structure LinguisticAnalysisR where
  euphemisms : List String
  framing : String
  plausibility : String

/-- Citation of a source document inside a finding. -/
structure SourceDocRef where
  id : String
  source : String
  date : String

/-- One contradiction found by the inconsistency check. -/
structure Contradiction where
  sourceDocument : SourceDocRef
  contradictoryStatement : String
  explanation : String

/-- One potential motive found by the motive check. -/
structure Motive where
  sourceDocument : SourceDocRef
  potentialMotive : String
  explanation : String

/-- Evidence container of the fixed four-stage orchestrator. -/
structure EvidenceL where
  linguisticAnalysis : Option LinguisticAnalysisR
  inconsistencyChecks : List Contradiction
  motiveChecks : List Motive

/-- Outcomes of the four LLM-backed stages, supplied as an oracle: each
stage either resolves with its typed result or rejects with an error
message. -/
structure StageOutcomes where
  linguistic : Except String LinguisticAnalysisR
  inconsistency : Except String (List Contradiction)
  motive : Except String (List Motive)
  synthesis : Except String String

/-- Names of the four declared stages, in declared order. -/
def stage1Name : String := "Linguistic Analysis"

/-- Name of the second declared stage. -/
def stage2Name : String := "Inconsistency Check"

/-- Name of the third declared stage. -/
def stage3Name : String := "Motive & Financial Analysis"

/-- Name of the fourth declared stage. -/
def stage4Name : String := "Synthesis & Reporting"

/-- Error-message prefix added by the catch block of `runAnalysis` in
`localAnalysisService.ts`. -/
def wrapAnalysisError (msg : String) : String :=
  "Error during analysis simulation: " ++ msg

/-- Model of the orchestrator `runAnalysis`
(`src/services/localAnalysisService.ts`, lines 148 to 183): the four
stages run strictly in sequence inside one try block; the callback is
invoked with `running` before each stage and `completed` after it; the
first rejection aborts the sequence and is rethrown once, wrapped.
Returns the full callback trace and the overall result. -/
def runAnalysisLocal (o : StageOutcomes) :
    List ProgressEvent × Except String (String × EvidenceL) :=
  let e1 : List ProgressEvent := [⟨stage1Name, .running⟩]
  match o.linguistic with
  | .error msg => (e1, .error (wrapAnalysisError msg))
  | .ok la =>
    let e2 := e1 ++ [⟨stage1Name, .completed⟩, ⟨stage2Name, .running⟩]
    match o.inconsistency with
    | .error msg => (e2, .error (wrapAnalysisError msg))
    | .ok ic =>
      let e3 := e2 ++ [⟨stage2Name, .completed⟩, ⟨stage3Name, .running⟩]
      match o.motive with
      | .error msg => (e3, .error (wrapAnalysisError msg))
      | .ok mc =>
        let e4 := e3 ++ [⟨stage3Name, .completed⟩, ⟨stage4Name, .running⟩]
        match o.synthesis with
        | .error msg => (e4, .error (wrapAnalysisError msg))
        | .ok md =>
          (e4 ++ [⟨stage4Name, .completed⟩], .ok (md, ⟨some la, ic, mc⟩))

/-- Status of a progress step persisted in a report. -/
inductive StepStatus where
  | pending : StepStatus
  | running : StepStatus
  | completed : StepStatus
  | error : StepStatus
  deriving DecidableEq

/-- One persisted progress step. -/
structure ProgressStepR where
  name : String
  status : StepStatus
  deriving DecidableEq

/-- Conversion from a callback status to a persisted step status. -/
def toStepStatus : CallbackStatus → StepStatus
  | .running => .running
  | .completed => .completed
  | .error => .error

/-- Initial progress list of a new report in the four-stage application
(`src/unnamed/part_003`, lines 74 to 79): all stages pending. -/
def initialProgressLocal : List ProgressStepR :=
  [⟨stage1Name, .pending⟩, ⟨stage2Name, .pending⟩,
   ⟨stage3Name, .pending⟩, ⟨stage4Name, .pending⟩]

/-- Model of `updateProgressOnSubject` applied to the progress list: every
step whose name matches is set to the reported status. -/
def applyProgress (ps : List ProgressStepR) (ev : ProgressEvent) : List ProgressStepR :=
  ps.map fun p => if p.name = ev.name then ⟨p.name, toStepStatus ev.status⟩ else p

/-- Model of `handleRunAnalysis` (`src/unnamed/part_003`, lines 48 to
105) restricted to the progress list of the created report: the callback
events are applied in order; on success every step is set to completed; on
failure the handler additionally applies `(stage4Name, error)` — the stage
name is hard-coded in the catch block. -/
def handleRunAnalysisProgress (o : StageOutcomes) : List ProgressStepR :=
  let r := runAnalysisLocal o
  let ps := r.1.foldl applyProgress initialProgressLocal
  match r.2 with
  | .ok _ => initialProgressLocal.map fun p => ⟨p.name, .completed⟩
  | .error _ => applyProgress ps ⟨stage4Name, .error⟩

/-- One step of an analysis plan. The tool field is a raw string: the plan
is produced by parsing an LLM reply, so at runtime it is not confined to
the declared tool vocabulary. -/
structure PlanStep where
  tool : String
  query : String
  deriving DecidableEq

/-- Comparator passed to `Array.prototype.sort` by `generatePlan`
(`src/services/geminiService.ts`, lines 47 to 51). -/
def planStepCompare (a b : PlanStep) : Int :=
  if a.tool = "linguistic_analysis" then -1
  else if b.tool = "linguistic_analysis" then 1
  else 0

/-- Stable insertion of an element into a sorted list: the element is
placed before the first entry it does not have to follow. -/
def jsInsert (cmp : PlanStep → PlanStep → Int) (x : PlanStep) :
    List PlanStep → List PlanStep
  | [] => [x]
  | y :: ys => if cmp x y ≤ 0 then x :: y :: ys else y :: jsInsert cmp x ys

/-- Model of `Array.prototype.sort` with a comparator: ECMAScript requires
the sort to be stable, which determines the result for consistent
comparators; this stable insertion sort realises that requirement. -/
def jsStableSort (cmp : PlanStep → PlanStep → Int) : List PlanStep → List PlanStep
  | [] => []
  | x :: xs => jsInsert cmp x (jsStableSort cmp xs)

/-- Plan re-ordering performed by `generatePlan` on the parsed steps. -/
def sortPlanSteps (steps : List PlanStep) : List PlanStep :=
  jsStableSort planStepCompare steps

/-- Tests whether a step invokes the linguistic-analysis tool. -/
def isLinguisticStep (s : PlanStep) : Bool :=
  s.tool == "linguistic_analysis"

/-- One fictional web search result of the plan-driven variant. -/
structure WebSearchResult where
  title : String
  url : String
  snippet : String

/-- One fictional vector search result of the plan-driven variant. -/
structure VectorSearchResult where
  source : String
  content : String

/-- Linguistic-analysis result shape of the plan-driven variant. -/
structure LinguisticAnalysisG where
  euphemisms : List String
  framing : String
  emotional_language : List String

/-- Evidence container of the plan-driven orchestrator. -/
structure EvidenceG where
  linguisticAnalysis : Option LinguisticAnalysisG
  webSearches : List WebSearchResult
  vectorSearches : List VectorSearchResult

/-- Outcome of one executed tool call of the plan-driven orchestrator,
supplied per network call by an oracle. -/
structure StepOracle where
  ling : Except String LinguisticAnalysisG
  web : Except String (List WebSearchResult)
  vec : Except String (List VectorSearchResult)

/-- Model of the tool-dispatch loop of the plan-driven `runAnalysis`
(`src/services/geminiService.ts`, lines 179 to 195): steps run in order;
a step with a known tool reports `running`, executes one network call
(consuming one oracle index), merges its result into the evidence and
reports `completed`; a rejection escapes the loop; a step with any other
tool does nothing. Returns the callback trace and the final evidence or
the escaping error. -/
def runPlanSteps (orc : Nat → StepOracle) :
    List PlanStep → Nat → EvidenceG → List ProgressEvent × Except String EvidenceG
  | [], _, ev => ([], .ok ev)
  | step :: rest, i, ev =>
    if step.tool = "linguistic_analysis" then
      match (orc i).ling with
      | .error e => ([⟨"Linguistic Analysis", .running⟩], .error e)
      | .ok la =>
        let r := runPlanSteps orc rest (i + 1) { ev with linguisticAnalysis := some la }
        (⟨"Linguistic Analysis", .running⟩ :: ⟨"Linguistic Analysis", .completed⟩ :: r.1, r.2)
    else if step.tool = "web_search" then
      match (orc i).web with
      | .error e => ([⟨"Web Search", .running⟩], .error e)
      | .ok rs =>
        let r := runPlanSteps orc rest (i + 1) { ev with webSearches := ev.webSearches ++ rs }
        (⟨"Web Search", .running⟩ :: ⟨"Web Search", .completed⟩ :: r.1, r.2)
    else if step.tool = "local_vector_search" then
      match (orc i).vec with
      | .error e => ([⟨"Local Vector Search", .running⟩], .error e)
      | .ok rs =>
        let r := runPlanSteps orc rest (i + 1) { ev with vectorSearches := ev.vectorSearches ++ rs }
        (⟨"Local Vector Search", .running⟩ :: ⟨"Local Vector Search", .completed⟩ :: r.1, r.2)
    else
      runPlanSteps orc rest i ev

/-- One ingested document of a subject. The type field is one of the
document-type strings of the repository. -/
structure IngestedDocument where
  id : String
  subject : String
  type : String
  source : String
  date : String
  content : String
  status : String

/-- Historical-data slice embedded in the motive-check prompt
(`src/services/localAnalysisService.ts`, line 84): the ingested documents
filtered to donations and articles, then cut to the first ten. -/
def motiveHistoricalData (docs : List IngestedDocument) : List IngestedDocument :=
  (docs.filter fun d => d.type == "donation" || d.type == "article").take 10

/-- One report held by a subject. -/
structure FinalReportL where
  id : String
  originalStatement : String
  markdownReport : String
  evidence : EvidenceL
  progress : List ProgressStepR
  timestamp : String

/-- One subject of the session state. -/
structure Subject where
  id : String
  name : String
  ingestedData : List IngestedDocument
  reports : List FinalReportL

/-- Session state of the application: the subjects and the selected
subject id. -/
structure AppState where
  subjects : List Subject
  selectedSubjectId : Option String

/-- Model of `handleDeleteSubject` (`src/unnamed/part_003`, lines 32 to
37): the subject is filtered out of the list; the selection is cleared
only when it pointed at the deleted subject. -/
def handleDeleteSubject (st : AppState) (subjectId : String) : AppState :=
  { subjects := st.subjects.filter fun s => !(s.id == subjectId),
    selectedSubjectId :=
      if st.selectedSubjectId = some subjectId then none else st.selectedSubjectId }

/-- Derived selected subject (`subjects.find(s => s.id === selectedSubjectId)
|| null`). -/
def selectedSubject (st : AppState) : Option Subject :=
  st.selectedSubjectId.bind fun sid => st.subjects.find? fun s => s.id == sid

/-- Constant id generator used to instantiate the `mkId` parameter in
concrete evaluations. -/
def constDocId : Nat → String := fun _ => "doc-w"

/-- Constant step oracle used to instantiate the plan-loop oracle in
concrete evaluations. -/
def constStepOracle : Nat → StepOracle := fun _ => ⟨.ok ⟨[], "", []⟩, .ok [], .ok []⟩

/-- Empty evidence container of the plan-driven orchestrator. -/
def emptyEvidenceG : EvidenceG := ⟨none, [], []⟩

/-- Fetch oracle answering every request successfully, used to instantiate
the transport parameter in concrete evaluations. -/
def constFetch : RequestBody → FetchOutcome := fun _ => .response true 200 "" (some "ok")

/-- Wrapper turning a string into the character-list domain of the JSON
functions. -/
def strChars (s : String) : List Char := s.data

theorem digitChar_isDigit : ∀ m, m < 10 → isDigitChar (Char.ofNat (48 + m)) = true := by
  decide

theorem digitChar_ne_zero : ∀ m, m < 10 → 0 < m → Char.ofNat (48 + m) ≠ '0' := by
  decide

theorem digitVal_digitChar : ∀ m, m < 10 → digitVal (Char.ofNat (48 + m)) = m := by
  decide

theorem natDigits_ne_nil (n : Nat) : natDigits n ≠ [] := by
  rw [natDigits]
  split
  · simp
  · simp

theorem natDigits_digits (n : Nat) : ∀ c ∈ natDigits n, isDigitChar c = true := by
  induction n using Nat.strong_induction_on with
  | _ n ih =>
    rw [natDigits]
    split
    next h =>
      intro c hc
      simp only [List.mem_singleton] at hc
      exact hc ▸ digitChar_isDigit n h
    next h =>
      intro c hc
      rcases List.mem_append.mp hc with h1 | h2
      · exact ih (n / 10) (Nat.div_lt_self (by omega) (by omega)) c h1
      · simp only [List.mem_singleton] at h2
        exact h2 ▸ digitChar_isDigit (n % 10) (Nat.mod_lt n (by omega))

theorem natDigits_head_ne_zero (n : Nat) (hn : 0 < n) :
    ∀ c, (natDigits n).head? = some c → c ≠ '0' := by
  induction n using Nat.strong_induction_on with
  | _ n ih =>
    rw [natDigits]
    split
    next h =>
      intro c hc
      simp only [List.head?_cons, Option.some.injEq] at hc
      exact hc ▸ digitChar_ne_zero n h hn
    next h =>
      intro c hc
      have hne := natDigits_ne_nil (n / 10)
      rcases he : natDigits (n / 10) with _ | ⟨d, ds⟩
      · exact absurd he hne
      · rw [he, List.cons_append, List.head?_cons, Option.some.injEq] at hc
        have := ih (n / 10) (Nat.div_lt_self (by omega) (by omega))
          (Nat.div_pos (by omega) (by omega)) d
        rw [he] at this
        exact hc ▸ this (by simp)

theorem digitsVal_append (acc : Nat) (l1 l2 : List Char) :
    digitsVal acc (l1 ++ l2) = digitsVal (digitsVal acc l1) l2 := by
  induction l1 generalizing acc with
  | nil => rfl
  | cons c t ih => exact ih _

theorem digitsVal_cons (acc : Nat) (c : Char) (t : List Char) :
    digitsVal acc (c :: t) = digitsVal (acc * 10 + digitVal c) t := rfl

theorem digitsVal_natDigits (n : Nat) :
    ∀ acc, digitsVal acc (natDigits n) = acc * 10 ^ (natDigits n).length + n := by
  induction n using Nat.strong_induction_on with
  | _ n ih =>
    intro acc
    rw [natDigits]
    split
    next h =>
      rw [digitsVal_cons, digitVal_digitChar n h]
      show acc * 10 + n = acc * 10 ^ 1 + n
      rw [pow_one]
    next h =>
      rw [digitsVal_append, ih (n / 10) (Nat.div_lt_self (by omega) (by omega)),
        digitsVal_cons, digitVal_digitChar (n % 10) (Nat.mod_lt n (by omega)),
        List.length_append]
      show digitsVal ((acc * 10 ^ (natDigits (n / 10)).length + n / 10) * 10 + n % 10) [] =
        acc * 10 ^ ((natDigits (n / 10)).length + 1) + n
      show (acc * 10 ^ (natDigits (n / 10)).length + n / 10) * 10 + n % 10 =
        acc * 10 ^ ((natDigits (n / 10)).length + 1) + n
      rw [Nat.pow_succ]
      calc (acc * 10 ^ (natDigits (n / 10)).length + n / 10) * 10 + n % 10
          = acc * (10 ^ (natDigits (n / 10)).length * 10) + (10 * (n / 10) + n % 10) := by
            ring
        _ = acc * (10 ^ (natDigits (n / 10)).length * 10) + n := by
            rw [Nat.div_add_mod]

theorem digitsVal_natDigits_zero (n : Nat) : digitsVal 0 (natDigits n) = n := by
  simpa using digitsVal_natDigits n 0

theorem takeWhile_append_eq {p : Char → Bool} {l r : List Char}
    (hl : ∀ c ∈ l, p c = true) (hr : ∀ c, r.head? = some c → p c = false) :
    (l ++ r).takeWhile p = l := by
  induction l with
  | nil =>
    cases r with
    | nil => rfl
    | cons c t => simp [List.takeWhile_cons, hr c rfl]
  | cons c t ih =>
    have hc : p c = true := hl c (by simp)
    simp only [List.cons_append, List.takeWhile_cons, hc, if_true]
    rw [ih fun d hd => hl d (by simp [hd])]

theorem dropWhile_append_eq {p : Char → Bool} {l r : List Char}
    (hl : ∀ c ∈ l, p c = true) (hr : ∀ c, r.head? = some c → p c = false) :
    (l ++ r).dropWhile p = r := by
  induction l with
  | nil =>
    cases r with
    | nil => rfl
    | cons c t => simp [List.dropWhile_cons, hr c rfl]
  | cons c t ih =>
    have hc : p c = true := hl c (by simp)
    simp only [List.cons_append, List.dropWhile_cons, hc, if_true]
    exact ih fun d hd => hl d (by simp [hd])

theorem skipWs_cons {c : Char} (t : List Char) (h : isJsonWs c = false) :
    skipWs (c :: t) = c :: t := by
  simp [skipWs, List.dropWhile_cons, h]

theorem isDigitChar_props {c : Char} (h : isDigitChar c = true) :
    isJsonWs c = false ∧ c ≠ ']' ∧ c ≠ '\x7d' ∧ c ≠ ',' ∧ c ≠ 'n' ∧ c ≠ 't' ∧
      c ≠ 'f' ∧ c ≠ '"' ∧ c ≠ '[' ∧ c ≠ '\x7b' ∧ c ≠ '-' := by
  simp only [isDigitChar, Bool.and_eq_true, decide_eq_true_eq] at h
  refine ⟨?_, ?_, ?_, ?_, ?_, ?_, ?_, ?_, ?_, ?_, ?_⟩
  · cases hw : isJsonWs c with
    | false => rfl
    | true =>
      simp only [isJsonWs, Bool.or_eq_true, decide_eq_true_eq] at hw
      rcases hw with ((h1 | h1) | h1) | h1 <;> subst h1 <;> exact absurd h (by decide)
  all_goals intro he; subst he; exact absurd h (by decide)

theorem hexVal_hexDigitChar : ∀ m, m < 16 → hexVal (hexDigitChar m) = some m := by
  decide

theorem parseStringBody_escChars (s rest : List Char) :
    parseStringBody (escChars s ++ '"' :: rest) = some (s, rest) := by
  induction s with
  | nil =>
    show parseStringBody ('"' :: rest) = some ([], rest)
    rw [parseStringBody.eq_def]
    simp
  | cons c s ih =>
    show parseStringBody ((escChar c ++ escChars s) ++ '"' :: rest) = some (c :: s, rest)
    rw [List.append_assoc]
    unfold escChar
    split_ifs with h1 h2 h3 h4 h5 h6 h7 h8
    · subst h1
      simp only [List.cons_append, List.nil_append]
      rw [parseStringBody.eq_def]
      simp [escCode, ih]
    · subst h2
      simp only [List.cons_append, List.nil_append]
      rw [parseStringBody.eq_def]
      simp [escCode, ih]
    · subst h3
      simp only [List.cons_append, List.nil_append]
      rw [parseStringBody.eq_def]
      simp [escCode, ih]
    · subst h4
      simp only [List.cons_append, List.nil_append]
      rw [parseStringBody.eq_def]
      simp [escCode, ih]
    · subst h5
      simp only [List.cons_append, List.nil_append]
      rw [parseStringBody.eq_def]
      simp [escCode, ih]
    · subst h6
      simp only [List.cons_append, List.nil_append]
      rw [parseStringBody.eq_def]
      simp [escCode, ih]
    · subst h7
      simp only [List.cons_append, List.nil_append]
      rw [parseStringBody.eq_def]
      simp [escCode, ih]
    · have hdiv : c.toNat / 16 < 16 := by omega
      have hmod : c.toNat % 16 < 16 := by omega
      simp only [List.cons_append, List.nil_append]
      rw [parseStringBody.eq_def]
      simp only [hexVal_hexDigitChar _ hdiv, hexVal_hexDigitChar _ hmod,
        (by decide : hexVal '0' = some 0), ih]
      have hval : c.toNat / 16 * 16 + c.toNat % 16 = c.toNat := by
        omega
      simp [hval, Char.ofNat_toNat]
    · simp only [List.cons_append, List.nil_append]
      rw [parseStringBody.eq_def]
      simp [h1, h2, h8, ih]

theorem head_not_digit_of_noDigitHead {rest : List Char} (hr : noDigitHead rest = true) :
    ∀ c, rest.head? = some c → isDigitChar c = false := by
  intro c hc
  cases rest with
  | nil => simp at hc
  | cons d t =>
    simp only [List.head?_cons, Option.some.injEq] at hc
    subst hc
    simpa [noDigitHead] using hr

theorem parseNatNum_natDigits (n : Nat) (rest : List Char) (hr : noDigitHead rest = true) :
    parseNatNum (natDigits n ++ rest) = some (n, rest) := by
  have hl := natDigits_digits n
  have hrr := head_not_digit_of_noDigitHead hr
  show (if ((natDigits n ++ rest).takeWhile isDigitChar).isEmpty then none
    else if 1 < ((natDigits n ++ rest).takeWhile isDigitChar).length ∧
        ((natDigits n ++ rest).takeWhile isDigitChar).head? = some '0' then none
    else some (digitsVal 0 ((natDigits n ++ rest).takeWhile isDigitChar),
      (natDigits n ++ rest).dropWhile isDigitChar)) = some (n, rest)
  rw [takeWhile_append_eq hl hrr, dropWhile_append_eq hl hrr]
  have h1 : ¬((natDigits n).isEmpty = true) := by
    simp only [List.isEmpty_iff]
    exact natDigits_ne_nil n
  rw [if_neg h1]
  have h2 : ¬(1 < (natDigits n).length ∧ (natDigits n).head? = some '0') := by
    rintro ⟨hlen, hhead⟩
    rcases Nat.eq_zero_or_pos n with hz | hp
    · subst hz
      rw [natDigits] at hlen
      simp at hlen
    · exact natDigits_head_ne_zero n hp '0' hhead rfl
  rw [if_neg h2, digitsVal_natDigits_zero]

theorem parseNumber_intChars (m : Int) (rest : List Char) (hr : noDigitHead rest = true) :
    parseNumber (intChars m ++ rest) = some (Json.num m, rest) := by
  cases m with
  | ofNat n =>
    show parseNumber (natDigits n ++ rest) = some (Json.num (Int.ofNat n), rest)
    have hne := natDigits_ne_nil n
    rcases he : natDigits n with _ | ⟨d, ds⟩
    · exact absurd he hne
    · have hd : isDigitChar d = true := by
        have := natDigits_digits n d
        rw [he] at this
        exact this (by simp)
      have hdm : d ≠ '-' := (isDigitChar_props hd).2.2.2.2.2.2.2.2.2.2
      show parseNumber (d :: (ds ++ rest)) = some (Json.num (Int.ofNat n), rest)
      rw [parseNumber.eq_def]
      simp only [if_neg hdm]
      rw [← List.cons_append, ← he, parseNatNum_natDigits n rest hr]
      rfl
  | negSucc k =>
    show parseNumber ('-' :: (natDigits (k + 1) ++ rest)) = some (Json.num (Int.negSucc k), rest)
    rw [parseNumber.eq_def]
    simp only [if_pos rfl]
    rw [parseNatNum_natDigits (k + 1) rest hr]
    have hcast : -((k + 1 : Nat) : Int) = Int.negSucc k := by
      rw [Int.negSucc_eq]
      push_cast
      ring
    show some (Json.num (-((k + 1 : Nat) : Int)), rest) = some (Json.num (Int.negSucc k), rest)
    rw [hcast]

theorem jsonStringify_null : jsonStringify Json.null = 'n' :: "ull".data := by
  simp [jsonStringify]

theorem jsonStringify_true : jsonStringify (Json.bool true) = 't' :: "rue".data := by
  simp [jsonStringify]

theorem jsonStringify_false : jsonStringify (Json.bool false) = 'f' :: "alse".data := by
  simp [jsonStringify]

theorem jsonStringify_num (n : Int) : jsonStringify (Json.num n) = intChars n := by
  simp [jsonStringify]

theorem jsonStringify_str (s : List Char) :
    jsonStringify (Json.str s) = '"' :: (escChars s ++ ['"']) := by
  simp [jsonStringify]

theorem jsonStringify_arr (xs : List Json) :
    jsonStringify (Json.arr xs) = '[' :: (stringifyElems xs ++ [']']) := by
  simp [jsonStringify]

theorem jsonStringify_obj (kvs : List (List Char × Json)) :
    jsonStringify (Json.obj kvs) = '\x7b' :: (stringifyMembers kvs ++ ['\x7d']) := by
  simp [jsonStringify]

theorem stringifyElems_nil : stringifyElems [] = [] := by
  simp [stringifyElems]

theorem stringifyElems_cons (x : Json) (xs : List Json) :
    stringifyElems (x :: xs) = jsonStringify x ++ stringifyElemsTail xs := by
  simp [stringifyElems]

theorem stringifyElemsTail_nil : stringifyElemsTail [] = [] := by
  simp [stringifyElemsTail]

theorem stringifyElemsTail_cons (x : Json) (xs : List Json) :
    stringifyElemsTail (x :: xs) = ',' :: (jsonStringify x ++ stringifyElemsTail xs) := by
  simp [stringifyElemsTail]

theorem stringifyMembers_nil : stringifyMembers [] = [] := by
  simp [stringifyMembers]

theorem stringifyMembers_cons (k : List Char) (v : Json) (kvs : List (List Char × Json)) :
    stringifyMembers ((k, v) :: kvs) =
      '"' :: (escChars k ++ '"' :: ':' :: jsonStringify v) ++ stringifyMembersTail kvs := by
  simp [stringifyMembers]

theorem stringifyMembersTail_nil : stringifyMembersTail [] = [] := by
  simp [stringifyMembersTail]

theorem stringifyMembersTail_cons (k : List Char) (v : Json) (kvs : List (List Char × Json)) :
    stringifyMembersTail ((k, v) :: kvs) =
      ',' :: '"' :: (escChars k ++ '"' :: ':' :: jsonStringify v) ++ stringifyMembersTail kvs := by
  simp [stringifyMembersTail]

theorem parseV_succ (f : Nat) (cs : List Char) :
    parseV (f + 1) cs =
      match skipWs cs with
      | [] => none
      | c :: t =>
        if c = 'n' then (expectChars ("ull".data) t).map fun r => (Json.null, r)
        else if c = 't' then (expectChars ("rue".data) t).map fun r => (Json.bool true, r)
        else if c = 'f' then (expectChars ("alse".data) t).map fun r => (Json.bool false, r)
        else if c = '"' then (parseStringBody t).map fun p => (Json.str p.1, p.2)
        else if c = '[' then (parseArrBody f t).map fun p => (Json.arr p.1, p.2)
        else if c = '\x7b' then (parseObjBody f t).map fun p => (Json.obj p.1, p.2)
        else if c = '-' || isDigitChar c then parseNumber (c :: t)
        else none := by
  rw [parseV.eq_def]

theorem parseArrBody_succ (f : Nat) (cs : List Char) :
    parseArrBody (f + 1) cs =
      match skipWs cs with
      | [] => none
      | c :: t =>
        if c = ']' then some ([], t)
        else
          match parseV f cs with
          | none => none
          | some (v, r) =>
            match parseArrTail f r with
            | none => none
            | some (vs, r2) => some (v :: vs, r2) := by
  rw [parseArrBody.eq_def]

theorem parseArrTail_succ (f : Nat) (cs : List Char) :
    parseArrTail (f + 1) cs =
      match skipWs cs with
      | [] => none
      | c :: t =>
        if c = ']' then some ([], t)
        else if c = ',' then
          match parseV f t with
          | none => none
          | some (v, r) =>
            match parseArrTail f r with
            | none => none
            | some (vs, r2) => some (v :: vs, r2)
        else none := by
  rw [parseArrTail.eq_def]

theorem parseObjBody_succ (f : Nat) (cs : List Char) :
    parseObjBody (f + 1) cs =
      match skipWs cs with
      | [] => none
      | c :: t =>
        if c = '\x7d' then some ([], t)
        else if c = '"' then
          match parseStringBody t with
          | none => none
          | some (k, r) =>
            match skipWs r with
            | [] => none
            | c2 :: r2 =>
              if c2 = ':' then
                match parseV f r2 with
                | none => none
                | some (v, r3) =>
                  match parseObjTail f r3 with
                  | none => none
                  | some (kvs, r4) => some ((k, v) :: kvs, r4)
              else none
        else none := by
  rw [parseObjBody.eq_def]

theorem parseObjTail_succ (f : Nat) (cs : List Char) :
    parseObjTail (f + 1) cs =
      match skipWs cs with
      | [] => none
      | c :: t =>
        if c = '\x7d' then some ([], t)
        else if c = ',' then
          match skipWs t with
          | [] => none
          | c2 :: t2 =>
            if c2 = '"' then
              match parseStringBody t2 with
              | none => none
              | some (k, r) =>
                match skipWs r with
                | [] => none
                | c3 :: r2 =>
                  if c3 = ':' then
                    match parseV f r2 with
                    | none => none
                    | some (v, r3) =>
                      match parseObjTail f r3 with
                      | none => none
                      | some (kvs, r4) => some ((k, v) :: kvs, r4)
                  else none
            else none
        else none := by
  rw [parseObjTail.eq_def]

theorem expectChars_append (lit rest : List Char) :
    expectChars lit (lit ++ rest) = some rest := by
  unfold expectChars
  rw [if_pos (List.isPrefixOf_iff_prefix.mpr (List.prefix_append _ _))]
  rw [List.drop_left]

theorem needV_pos (x : Json) : 1 ≤ needV x := by
  cases x <;> simp [needV]

theorem needElems_pos (xs : List Json) : 1 ≤ needElems xs := by
  cases xs with
  | nil => simp [needElems]
  | cons x xs => simp [needElems]

theorem needMembers_pos (kvs : List (List Char × Json)) : 1 ≤ needMembers kvs := by
  cases kvs with
  | nil => simp [needMembers]
  | cons kv kvs =>
    obtain ⟨k, v⟩ := kv
    simp [needMembers]

theorem jsonStringify_head (x : Json) :
    ∃ c t, jsonStringify x = c :: t ∧ isJsonWs c = false ∧ c ≠ ']' ∧ c ≠ '\x7d' := by
  cases x with
  | null => exact ⟨'n', _, jsonStringify_null, by decide, by decide, by decide⟩
  | bool b =>
    cases b with
    | true => exact ⟨'t', _, jsonStringify_true, by decide, by decide, by decide⟩
    | false => exact ⟨'f', _, jsonStringify_false, by decide, by decide, by decide⟩
  | num n =>
    cases n with
    | ofNat m =>
      have hne := natDigits_ne_nil m
      rcases he : natDigits m with _ | ⟨d, ds⟩
      · exact absurd he hne
      · have hd : isDigitChar d = true := by
          have := natDigits_digits m d
          rw [he] at this
          exact this (by simp)
        obtain ⟨hws, h1, h2, _⟩ := isDigitChar_props hd
        exact ⟨d, ds, by rw [jsonStringify_num]; exact he, hws, h1, h2⟩
    | negSucc k =>
      exact ⟨'-', _, by rw [jsonStringify_num]; rfl, by decide, by decide, by decide⟩
  | str s => exact ⟨'"', _, jsonStringify_str s, by decide, by decide, by decide⟩
  | arr xs => exact ⟨'[', _, jsonStringify_arr xs, by decide, by decide, by decide⟩
  | obj kvs => exact ⟨'\x7b', _, jsonStringify_obj kvs, by decide, by decide, by decide⟩

theorem noDigitHead_elemsTail (xs : List Json) (rest : List Char) :
    noDigitHead (stringifyElemsTail xs ++ ']' :: rest) = true := by
  cases xs with
  | nil =>
    rw [stringifyElemsTail_nil, List.nil_append]
    rfl
  | cons x xs =>
    rw [stringifyElemsTail_cons, List.cons_append]
    rfl

theorem noDigitHead_membersTail (kvs : List (List Char × Json)) (rest : List Char) :
    noDigitHead (stringifyMembersTail kvs ++ '\x7d' :: rest) = true := by
  cases kvs with
  | nil =>
    rw [stringifyMembersTail_nil, List.nil_append]
    rfl
  | cons kv kvs =>
    obtain ⟨k, v⟩ := kv
    rw [stringifyMembersTail_cons, List.cons_append]
    rfl

mutual

theorem parseV_stringify (x : Json) (fuel : Nat) (rest : List Char)
    (hf : needV x ≤ fuel) (hr : noDigitHead rest = true) :
    parseV fuel (jsonStringify x ++ rest) = some (x, rest) := by
  cases fuel with
  | zero => exact absurd (le_trans (needV_pos x) hf) (by omega)
  | succ f =>
    cases x with
    | null =>
      rw [jsonStringify_null, List.cons_append, parseV_succ, skipWs_cons _ (by decide)]
      simp
      exact expectChars_append _ rest
    | bool b =>
      cases b with
      | true =>
        rw [jsonStringify_true, List.cons_append, parseV_succ, skipWs_cons _ (by decide)]
        simp
        exact expectChars_append _ rest
      | false =>
        rw [jsonStringify_false, List.cons_append, parseV_succ, skipWs_cons _ (by decide)]
        simp
        exact expectChars_append _ rest
    | num n =>
      cases n with
      | ofNat m =>
        have hnn := natDigits_ne_nil m
        rcases he : natDigits m with _ | ⟨d, ds⟩
        · exact absurd he hnn
        · have hd : isDigitChar d = true := by
            have := natDigits_digits m d
            rw [he] at this
            exact this (by simp)
          obtain ⟨hws, _, _, _, hn1, hn2, hn3, hn4, hn5, hn6, _⟩ := isDigitChar_props hd
          have hic : jsonStringify (Json.num (Int.ofNat m)) = d :: ds := by
            rw [jsonStringify_num]
            exact he
          rw [hic, List.cons_append, parseV_succ, skipWs_cons _ hws]
          simp [hn1, hn2, hn3, hn4, hn5, hn6, hd]
          rw [← List.cons_append, ← he]
          exact parseNumber_intChars (Int.ofNat m) rest hr
      | negSucc k =>
        have hic : jsonStringify (Json.num (Int.negSucc k)) = '-' :: natDigits (k + 1) := by
          rw [jsonStringify_num]
          rfl
        rw [hic, List.cons_append, parseV_succ, skipWs_cons _ (by decide)]
        simp
        rw [← List.cons_append]
        exact parseNumber_intChars (Int.negSucc k) rest hr
    | str s =>
      rw [jsonStringify_str]
      simp only [List.append_assoc, List.cons_append, List.singleton_append]
      rw [parseV_succ, skipWs_cons _ (by decide)]
      simp [parseStringBody_escChars]
    | arr xs =>
      have hf' : needElems xs ≤ f := by
        have hv : needV (Json.arr xs) = needElems xs + 1 := by simp [needV]
        omega
      rw [jsonStringify_arr]
      simp only [List.append_assoc, List.cons_append, List.singleton_append]
      rw [parseV_succ, skipWs_cons _ (by decide)]
      simp [parseArrBody_stringify xs f rest hf']
    | obj kvs =>
      have hf' : needMembers kvs ≤ f := by
        have hv : needV (Json.obj kvs) = needMembers kvs + 1 := by simp [needV]
        omega
      rw [jsonStringify_obj]
      simp only [List.append_assoc, List.cons_append, List.singleton_append]
      rw [parseV_succ, skipWs_cons _ (by decide)]
      simp [parseObjBody_stringify kvs f rest hf']

theorem parseArrBody_stringify (xs : List Json) (fuel : Nat) (rest : List Char)
    (hf : needElems xs ≤ fuel) :
    parseArrBody fuel (stringifyElems xs ++ ']' :: rest) = some (xs, rest) := by
  cases fuel with
  | zero => exact absurd (le_trans (needElems_pos xs) hf) (by omega)
  | succ f =>
    cases xs with
    | nil =>
      rw [stringifyElems_nil, List.nil_append, parseArrBody_succ, skipWs_cons _ (by decide)]
      simp
    | cons x xs =>
      obtain ⟨c, t, hx, hws, hc1, hc2⟩ := jsonStringify_head x
      have hne : needElems (x :: xs) = max (needV x) (needElems xs) + 1 := by
        simp [needElems]
      have hfx : needV x ≤ f := by omega
      have hft : needElems xs ≤ f := by omega
      rw [stringifyElems_cons, List.append_assoc, parseArrBody_succ, hx, List.cons_append,
        skipWs_cons _ hws]
      simp [hc1]
      rw [← List.cons_append, ← hx,
        parseV_stringify x f _ hfx (noDigitHead_elemsTail xs rest)]
      simp [parseArrTail_stringify xs f rest hft]

theorem parseArrTail_stringify (xs : List Json) (fuel : Nat) (rest : List Char)
    (hf : needElems xs ≤ fuel) :
    parseArrTail fuel (stringifyElemsTail xs ++ ']' :: rest) = some (xs, rest) := by
  cases fuel with
  | zero => exact absurd (le_trans (needElems_pos xs) hf) (by omega)
  | succ f =>
    cases xs with
    | nil =>
      rw [stringifyElemsTail_nil, List.nil_append, parseArrTail_succ, skipWs_cons _ (by decide)]
      simp
    | cons x xs =>
      have hne : needElems (x :: xs) = max (needV x) (needElems xs) + 1 := by
        simp [needElems]
      have hfx : needV x ≤ f := by omega
      have hft : needElems xs ≤ f := by omega
      rw [stringifyElemsTail_cons]
      simp only [List.append_assoc, List.cons_append]
      rw [parseArrTail_succ, skipWs_cons _ (by decide)]
      simp
      rw [parseV_stringify x f _ hfx (noDigitHead_elemsTail xs rest)]
      simp [parseArrTail_stringify xs f rest hft]

theorem parseObjBody_stringify (kvs : List (List Char × Json)) (fuel : Nat) (rest : List Char)
    (hf : needMembers kvs ≤ fuel) :
    parseObjBody fuel (stringifyMembers kvs ++ '\x7d' :: rest) = some (kvs, rest) := by
  cases fuel with
  | zero => exact absurd (le_trans (needMembers_pos kvs) hf) (by omega)
  | succ f =>
    cases kvs with
    | nil =>
      rw [stringifyMembers_nil, List.nil_append, parseObjBody_succ, skipWs_cons _ (by decide)]
      simp
    | cons kv kvs =>
      obtain ⟨k, v⟩ := kv
      have hne : needMembers ((k, v) :: kvs) = max (needV v) (needMembers kvs) + 1 := by
        simp [needMembers]
      have hfv : needV v ≤ f := by omega
      have hft : needMembers kvs ≤ f := by omega
      rw [stringifyMembers_cons]
      simp only [List.append_assoc, List.cons_append]
      rw [parseObjBody_succ, skipWs_cons _ (by decide)]
      simp [parseStringBody_escChars, skipWs_cons _ (by decide : isJsonWs ':' = false)]
      rw [parseV_stringify v f _ hfv (noDigitHead_membersTail kvs rest)]
      simp [parseObjTail_stringify kvs f rest hft]

theorem parseObjTail_stringify (kvs : List (List Char × Json)) (fuel : Nat) (rest : List Char)
    (hf : needMembers kvs ≤ fuel) :
    parseObjTail fuel (stringifyMembersTail kvs ++ '\x7d' :: rest) = some (kvs, rest) := by
  cases fuel with
  | zero => exact absurd (le_trans (needMembers_pos kvs) hf) (by omega)
  | succ f =>
    cases kvs with
    | nil =>
      rw [stringifyMembersTail_nil, List.nil_append, parseObjTail_succ, skipWs_cons _ (by decide)]
      simp
    | cons kv kvs =>
      obtain ⟨k, v⟩ := kv
      have hne : needMembers ((k, v) :: kvs) = max (needV v) (needMembers kvs) + 1 := by
        simp [needMembers]
      have hfv : needV v ≤ f := by omega
      have hft : needMembers kvs ≤ f := by omega
      rw [stringifyMembersTail_cons]
      simp only [List.append_assoc, List.cons_append]
      rw [parseObjTail_succ, skipWs_cons _ (by decide)]
      simp [skipWs_cons _ (by decide : isJsonWs '"' = false), parseStringBody_escChars,
        skipWs_cons _ (by decide : isJsonWs ':' = false)]
      rw [parseV_stringify v f _ hfv (noDigitHead_membersTail kvs rest)]
      simp [parseObjTail_stringify kvs f rest hft]

end

theorem jsonStringify_length_pos (x : Json) : 1 ≤ (jsonStringify x).length := by
  obtain ⟨c, t, hx, _, _, _⟩ := jsonStringify_head x
  rw [hx]
  simp

mutual

theorem needV_le_length (x : Json) : needV x ≤ (jsonStringify x).length := by
  cases x with
  | null => decide
  | bool b => cases b <;> decide
  | num n =>
    have := jsonStringify_length_pos (Json.num n)
    simpa [needV] using this
  | str s =>
    have := jsonStringify_length_pos (Json.str s)
    simpa [needV] using this
  | arr xs =>
    have h1 := needElems_le_length1 xs
    rw [jsonStringify_arr]
    simp only [needV, List.length_cons, List.length_append, List.length_singleton]
    omega
  | obj kvs =>
    have h1 := needMembers_le_length1 kvs
    rw [jsonStringify_obj]
    simp only [needV, List.length_cons, List.length_append, List.length_singleton]
    omega

theorem needElems_le_length1 (xs : List Json) :
    needElems xs ≤ (stringifyElems xs).length + 1 := by
  cases xs with
  | nil =>
    rw [stringifyElems_nil]
    simp [needElems]
  | cons x xs =>
    have h1 := needV_le_length x
    have h2 := needElems_le_length2 xs
    have h3 := jsonStringify_length_pos x
    rw [stringifyElems_cons]
    simp only [needElems, List.length_append]
    omega

theorem needElems_le_length2 (xs : List Json) :
    needElems xs ≤ (stringifyElemsTail xs).length + 1 := by
  cases xs with
  | nil =>
    rw [stringifyElemsTail_nil]
    simp [needElems]
  | cons x xs =>
    have h1 := needV_le_length x
    have h2 := needElems_le_length2 xs
    rw [stringifyElemsTail_cons]
    simp only [needElems, List.length_cons, List.length_append]
    omega

theorem needMembers_le_length1 (kvs : List (List Char × Json)) :
    needMembers kvs ≤ (stringifyMembers kvs).length + 1 := by
  cases kvs with
  | nil =>
    rw [stringifyMembers_nil]
    simp [needMembers]
  | cons kv kvs =>
    obtain ⟨k, v⟩ := kv
    have h1 := needV_le_length v
    have h2 := needMembers_le_length2 kvs
    rw [stringifyMembers_cons]
    simp only [needMembers, List.length_cons, List.length_append]
    omega

theorem needMembers_le_length2 (kvs : List (List Char × Json)) :
    needMembers kvs ≤ (stringifyMembersTail kvs).length + 1 := by
  cases kvs with
  | nil =>
    rw [stringifyMembersTail_nil]
    simp [needMembers]
  | cons kv kvs =>
    obtain ⟨k, v⟩ := kv
    have h1 := needV_le_length v
    have h2 := needMembers_le_length2 kvs
    rw [stringifyMembersTail_cons]
    simp only [needMembers, List.length_cons, List.length_append]
    omega

end

theorem jsonParse_stringify (x : Json) : jsonParse (jsonStringify x) = some x := by
  unfold jsonParse
  have hb : needV x ≤ (jsonStringify x).length + 1 :=
    le_trans (needV_le_length x) (by omega)
  have hp := parseV_stringify x ((jsonStringify x).length + 1) [] hb rfl
  rw [List.append_nil] at hp
  rw [hp]
  simp [skipWs]

/-- C2: in the non-error path `runAnalysis` invokes the progress callback
with each declared stage exactly twice — `running` then `completed` — in
the fixed declared order, and the two calls of a stage are never
interleaved with the calls of another stage: the callback trace is exactly
the eight events below, and filtering the trace by each stage name yields
exactly `[running, completed]`. -/
theorem runAnalysis_success_callback_trace (la : LinguisticAnalysisR)
    (ic : List Contradiction) (mc : List Motive) (md : String) :
    (runAnalysisLocal ⟨.ok la, .ok ic, .ok mc, .ok md⟩).1 =
      [⟨stage1Name, .running⟩, ⟨stage1Name, .completed⟩,
       ⟨stage2Name, .running⟩, ⟨stage2Name, .completed⟩,
       ⟨stage3Name, .running⟩, ⟨stage3Name, .completed⟩,
       ⟨stage4Name, .running⟩, ⟨stage4Name, .completed⟩] ∧
    (((runAnalysisLocal ⟨.ok la, .ok ic, .ok mc, .ok md⟩).1.filter
        fun e => e.name == stage1Name).map fun e => e.status) = [.running, .completed] ∧
    (((runAnalysisLocal ⟨.ok la, .ok ic, .ok mc, .ok md⟩).1.filter
        fun e => e.name == stage2Name).map fun e => e.status) = [.running, .completed] ∧
    (((runAnalysisLocal ⟨.ok la, .ok ic, .ok mc, .ok md⟩).1.filter
        fun e => e.name == stage3Name).map fun e => e.status) = [.running, .completed] ∧
    (((runAnalysisLocal ⟨.ok la, .ok ic, .ok mc, .ok md⟩).1.filter
        fun e => e.name == stage4Name).map fun e => e.status) = [.running, .completed] := by
  refine ⟨rfl, ?_, ?_, ?_, ?_⟩ <;> rfl

/-- C1: behaviour of the code at the failing input named by the claim — a
transport failure during the second stage. The orchestrator attempts no
stage after the failing one and rethrows exactly one wrapped error (the
true parts of the claim), but it never invokes the callback with
`(stage2Name, error)`: the trace ends after `(stage2Name, running)`.
The application-level catch block then hard-codes `(stage4Name, error)`,
so the final progress list shows the failing second stage still `running`
and the fourth stage `error`, not the `[completed, error, pending,
pending]` shape the claim describes. -/
theorem runAnalysis_stage2_failure_behaviour :
    (runAnalysisLocal ⟨.ok ⟨[], "", ""⟩, .error "simulated transport failure",
        .ok [], .ok ""⟩).1 =
      [⟨stage1Name, .running⟩, ⟨stage1Name, .completed⟩, ⟨stage2Name, .running⟩] ∧
    (runAnalysisLocal ⟨.ok ⟨[], "", ""⟩, .error "simulated transport failure",
        .ok [], .ok ""⟩).2 =
      .error "Error during analysis simulation: simulated transport failure" ∧
    handleRunAnalysisProgress ⟨.ok ⟨[], "", ""⟩, .error "simulated transport failure",
        .ok [], .ok ""⟩ =
      [⟨stage1Name, .completed⟩, ⟨stage2Name, .running⟩,
       ⟨stage3Name, .pending⟩, ⟨stage4Name, .error⟩] ∧
    handleRunAnalysisProgress ⟨.ok ⟨[], "", ""⟩, .error "simulated transport failure",
        .ok [], .ok ""⟩ ≠
      [⟨stage1Name, .completed⟩, ⟨stage2Name, .error⟩,
       ⟨stage3Name, .pending⟩, ⟨stage4Name, .pending⟩] := by
  refine ⟨rfl, rfl, rfl, ?_⟩
  decide

/-- C10: in the plan-driven tool-dispatch loop, a step whose tool is none
of the three known tools is silently skipped: the run over the plan with
the step is identical — same callback events, same evidence, same oracle
consumption — to the run over the plan without it. -/
theorem runPlanSteps_skips_unknown_tool (step : PlanStep)
    (h1 : step.tool ≠ "linguistic_analysis") (h2 : step.tool ≠ "web_search")
    (h3 : step.tool ≠ "local_vector_search")
    (orc : Nat → StepOracle) (rest : List PlanStep) (i : Nat) (ev : EvidenceG) :
    runPlanSteps orc (step :: rest) i ev = runPlanSteps orc rest i ev := by
  rw [runPlanSteps.eq_def]
  simp [h1, h2, h3]

/-- Witness for C10 at a concrete unknown tool name. -/
theorem runPlanSteps_skips_unknown_tool_witness :
    runPlanSteps constStepOracle [⟨"frobnicate", "q"⟩] 0 emptyEvidenceG =
      runPlanSteps constStepOracle [] 0 emptyEvidenceG :=
  runPlanSteps_skips_unknown_tool ⟨"frobnicate", "q"⟩ (by decide) (by decide) (by decide)
    constStepOracle [] 0 emptyEvidenceG

/-- C8: calling `generate` while the endpoint or the model identifier is
not configured (empty, the only falsy string) fails with the
not-configured error and issues no HTTP request. -/
theorem generate_not_configured (settings : LLMSettings) (prompt : String)
    (expectJson : Bool) (fetch2 : RequestBody → FetchOutcome)
    (h : settings.endpoint = "" ∨ settings.model = "") :
    generateModel settings prompt expectJson fetch2 = (.error notConfiguredMsg, []) := by
  unfold generateModel
  rw [if_pos h]

/-- Witness for C8 at a concrete unconfigured settings value. -/
theorem generate_not_configured_witness :
    generateModel ⟨"", "llama3"⟩ "p" true constFetch = (.error notConfiguredMsg, []) :=
  generate_not_configured ⟨"", "llama3"⟩ "p" true constFetch (Or.inl rfl)

theorem jsInsert_linguistic (x : PlanStep) (hx : isLinguisticStep x = true)
    (l : List PlanStep) : jsInsert planStepCompare x l = x :: l := by
  have hx' : x.tool = "linguistic_analysis" := by
    simpa [isLinguisticStep] using hx
  cases l with
  | nil => rfl
  | cons y ys =>
    have hcmp : planStepCompare x y ≤ 0 := by
      unfold planStepCompare
      rw [if_pos hx']
      decide
    unfold jsInsert
    rw [if_pos hcmp]

theorem jsInsert_not_linguistic (x : PlanStep) (hx : isLinguisticStep x = false) :
    ∀ (front back : List PlanStep), (∀ y ∈ front, isLinguisticStep y = true) →
    (∀ y ∈ back, isLinguisticStep y = false) →
    jsInsert planStepCompare x (front ++ back) = front ++ x :: back := by
  have hx' : ¬ x.tool = "linguistic_analysis" := by
    simpa [isLinguisticStep] using hx
  intro front
  induction front with
  | nil =>
    intro back _ hback
    cases back with
    | nil => rfl
    | cons b bs =>
      have hb : ¬ b.tool = "linguistic_analysis" := by
        simpa [isLinguisticStep] using hback b (by simp)
      have hcmp : planStepCompare x b ≤ 0 := by
        unfold planStepCompare
        rw [if_neg hx', if_neg hb]
      show jsInsert planStepCompare x (b :: bs) = x :: b :: bs
      unfold jsInsert
      rw [if_pos hcmp]
  | cons a front ih =>
    intro back hfront hback
    have ha : a.tool = "linguistic_analysis" := by
      simpa [isLinguisticStep] using hfront a (by simp)
    have hcmp : ¬ (planStepCompare x a ≤ 0) := by
      unfold planStepCompare
      rw [if_neg hx', if_pos ha]
      decide
    show jsInsert planStepCompare x (a :: (front ++ back)) = a :: (front ++ x :: back)
    unfold jsInsert
    rw [if_neg hcmp, ih back (fun y hy => hfront y (List.mem_cons_of_mem a hy)) hback]

/-- C4: `generatePlan` re-orders the parsed steps as a stable partition —
every linguistic-analysis step moves to the front and the relative order
of all other steps is preserved — and on the concrete plan of the claim
the result is exactly as the claim states. The `Array.prototype.sort`
call is modelled by a stable sort, as required by ECMAScript for the
consistent part of this comparator. -/
theorem sortPlanSteps_stable_partition :
    (∀ steps : List PlanStep, sortPlanSteps steps =
      steps.filter isLinguisticStep ++ steps.filter fun s => !(isLinguisticStep s)) ∧
    sortPlanSteps
        [⟨"web_search", "q1"⟩, ⟨"linguistic_analysis", "q2"⟩, ⟨"web_search", "q3"⟩] =
      [⟨"linguistic_analysis", "q2"⟩, ⟨"web_search", "q1"⟩, ⟨"web_search", "q3"⟩] := by
  constructor
  · intro steps
    induction steps with
    | nil => rfl
    | cons x xs ih =>
      show jsInsert planStepCompare x (sortPlanSteps xs) = _
      rw [ih]
      cases hx : isLinguisticStep x with
      | true =>
        rw [jsInsert_linguistic x hx]
        simp [List.filter_cons, hx]
      | false =>
        rw [jsInsert_not_linguistic x hx _ _
          (fun y hy => (List.mem_filter.mp hy).2)
          (fun y hy => by simpa using (List.mem_filter.mp hy).2)]
        simp [List.filter_cons, hx]
  · rfl

/-- C6: the historical-data slice embedded in the motive-check prompt is
an order-preserving selection from the ingested documents containing only
donations and articles, of length at most ten; whenever at least ten
documents match anywhere in the list the slice has exactly ten entries
(the filter runs before the truncation), and whenever at most ten match
the slice is the whole filtered list. -/
theorem motiveHistoricalData_spec (docs : List IngestedDocument) :
    List.Sublist (motiveHistoricalData docs) docs ∧
    (∀ d ∈ motiveHistoricalData docs, d.type = "donation" ∨ d.type = "article") ∧
    (motiveHistoricalData docs).length ≤ 10 ∧
    (10 ≤ (docs.filter fun d => d.type == "donation" || d.type == "article").length →
      (motiveHistoricalData docs).length = 10) ∧
    ((docs.filter fun d => d.type == "donation" || d.type == "article").length ≤ 10 →
      motiveHistoricalData docs =
        docs.filter fun d => d.type == "donation" || d.type == "article") := by
  refine ⟨?_, ?_, ?_, ?_, ?_⟩
  · exact (List.take_sublist _ _).trans (List.filter_sublist _)
  · intro d hd
    have hmem := List.mem_of_mem_take hd
    have := (List.mem_filter.mp hmem).2
    simpa using this
  · unfold motiveHistoricalData
    rw [List.length_take]
    exact Nat.min_le_left _ _
  · intro h
    unfold motiveHistoricalData
    rw [List.length_take]
    omega
  · intro h
    unfold motiveHistoricalData
    exact List.take_of_length_le h

/-- Witness for C6 at a concrete document list with one donation, one
article and one speech: the slice is the filtered list in order. -/
theorem motiveHistoricalData_spec_witness :
    motiveHistoricalData
        [⟨"d1", "s", "donation", "", "", "", "indexed"⟩,
         ⟨"d2", "s", "speech", "", "", "", "indexed"⟩,
         ⟨"d3", "s", "article", "", "", "", "indexed"⟩] =
      [⟨"d1", "s", "donation", "", "", "", "indexed"⟩,
       ⟨"d3", "s", "article", "", "", "", "indexed"⟩] := by
  have h := (motiveHistoricalData_spec
    [⟨"d1", "s", "donation", "", "", "", "indexed"⟩,
     ⟨"d2", "s", "speech", "", "", "", "indexed"⟩,
     ⟨"d3", "s", "article", "", "", "", "indexed"⟩]).2.2.2.2 (by decide)
  rw [h]
  rfl

theorem find_filter_other_id (l : List Subject) (selId sid : String) (hne : selId ≠ sid) :
    (l.filter fun s => !(s.id == sid)).find? (fun s => s.id == selId) =
      l.find? (fun s => s.id == selId) := by
  induction l with
  | nil => rfl
  | cons s l ih =>
    by_cases hsel : s.id = selId
    · have hkeep : (!(s.id == sid)) = true := by
        simp only [Bool.not_eq_true']
        simp only [beq_eq_false_iff_ne]
        rw [hsel]
        exact hne
      have hfind : (s.id == selId) = true := by simp [hsel]
      rw [List.filter_cons, if_pos hkeep, List.find?_cons, hfind, List.find?_cons, hfind]
    · have hfind : (s.id == selId) = false := by simp [hsel]
      rw [List.find?_cons, hfind]
      cases hkeep : (!(s.id == sid)) with
      | true =>
        rw [List.filter_cons, if_pos hkeep, List.find?_cons, hfind]
        exact ih
      | false =>
        rw [List.filter_cons, if_neg (by simp [hkeep])]
        exact ih

/-- C9: deleting a subject that is not the currently selected one leaves
the selected-subject id unchanged and the selected subject record — hence
its reports and ingested documents — unchanged; every other subject stays
in the list and every remaining subject comes from the old list and is
not the deleted one. -/
theorem deleteSubject_other_preserves_selection (st : AppState) (sid : String)
    (h : st.selectedSubjectId ≠ some sid) :
    (handleDeleteSubject st sid).selectedSubjectId = st.selectedSubjectId ∧
    selectedSubject (handleDeleteSubject st sid) = selectedSubject st ∧
    (∀ s ∈ st.subjects, s.id ≠ sid → s ∈ (handleDeleteSubject st sid).subjects) ∧
    (∀ s ∈ (handleDeleteSubject st sid).subjects, s ∈ st.subjects ∧ s.id ≠ sid) := by
  have hsel : (handleDeleteSubject st sid).selectedSubjectId = st.selectedSubjectId := by
    unfold handleDeleteSubject
    exact if_neg h
  refine ⟨hsel, ?_, ?_, ?_⟩
  · unfold selectedSubject
    rw [hsel]
    cases hid : st.selectedSubjectId with
    | none => rfl
    | some selId =>
      have hne : selId ≠ sid := by
        intro he
        exact h (by rw [hid, he])
      show ((handleDeleteSubject st sid).subjects.find? fun s => s.id == selId) =
        (st.subjects.find? fun s => s.id == selId)
      unfold handleDeleteSubject
      exact find_filter_other_id st.subjects selId sid hne
  · intro s hs hne
    show s ∈ st.subjects.filter fun s => !(s.id == sid)
    rw [List.mem_filter]
    exact ⟨hs, by simpa using hne⟩
  · intro s hs
    have hs' : s ∈ st.subjects.filter fun s => !(s.id == sid) := hs
    rw [List.mem_filter] at hs'
    exact ⟨hs'.1, by simpa using hs'.2⟩

/-- Witness for C9 at a concrete two-subject state with the first subject
selected and the second deleted. -/
theorem deleteSubject_other_preserves_selection_witness :
    (handleDeleteSubject ⟨[⟨"subj-01", "A", [], []⟩, ⟨"subj-02", "B", [], []⟩],
        some "subj-01"⟩ "subj-02").selectedSubjectId = some "subj-01" ∧
    selectedSubject (handleDeleteSubject ⟨[⟨"subj-01", "A", [], []⟩,
        ⟨"subj-02", "B", [], []⟩], some "subj-01"⟩ "subj-02") =
      selectedSubject ⟨[⟨"subj-01", "A", [], []⟩, ⟨"subj-02", "B", [], []⟩],
        some "subj-01"⟩ := by
  have h := deleteSubject_other_preserves_selection
    ⟨[⟨"subj-01", "A", [], []⟩, ⟨"subj-02", "B", [], []⟩], some "subj-01"⟩ "subj-02"
    (by simp)
  exact ⟨h.1, h.2.1⟩

theorem parseLLMJson_error_msg (cs : List Char) (e : String)
    (h : parseLLMJson cs = .error e) : e = malformedMsg := by
  unfold parseLLMJson at h
  split at h
  · split at h
    · split at h
      · exact Except.noConfusion h
      · exact (Except.error.inj h).symm
    · split at h
      · exact Except.noConfusion h
      · exact (Except.error.inj h).symm
  · split at h
    · exact Except.noConfusion h
    · exact (Except.error.inj h).symm

/-- C7: `runAutomatedSearch` throws the unexpected-format error exactly
when the reply parses to a value that is not an array (a parse failure
instead surfaces the malformed-response error, which is a different
message), and when the reply parses to an array it returns one
client-side record per element of that array. -/
theorem runAutomatedSearch_format_contract (text : List Char) (mkId : Nat → String) :
    (runAutomatedSearchModel text mkId = .error unexpectedFormatMsg ↔
      ∃ v, parseLLMJson text = .ok v ∧ v.isArr = false) ∧
    (∀ xs, parseLLMJson text = .ok (Json.arr xs) →
      runAutomatedSearchModel text mkId =
        .ok (xs.mapIdx fun i x => ⟨x, mkId i, "indexed"⟩) ∧
      (xs.mapIdx fun i x => (⟨x, mkId i, "indexed"⟩ : SearchDoc)).length = xs.length) := by
  constructor
  · constructor
    · intro h
      unfold runAutomatedSearchModel at h
      rcases hp : parseLLMJson text with e | v <;> rw [hp] at h
      · have h2 : Except.error e = (Except.error unexpectedFormatMsg :
            Except String (List SearchDoc)) := h
        have he : e = unexpectedFormatMsg := Except.error.inj h2
        have hm := parseLLMJson_error_msg text e hp
        rw [hm] at he
        exact absurd he (by decide)
      · cases v with
        | arr xs => exact Except.noConfusion h
        | null => exact ⟨Json.null, rfl, rfl⟩
        | bool b => exact ⟨Json.bool b, rfl, rfl⟩
        | num n => exact ⟨Json.num n, rfl, rfl⟩
        | str s => exact ⟨Json.str s, rfl, rfl⟩
        | obj kvs => exact ⟨Json.obj kvs, rfl, rfl⟩
    · rintro ⟨v, hv, hna⟩
      unfold runAutomatedSearchModel
      rw [hv]
      cases v with
      | arr xs => simp [Json.isArr] at hna
      | null => rfl
      | bool b => rfl
      | num n => rfl
      | str s => rfl
      | obj kvs => rfl
  · intro xs hxs
    unfold runAutomatedSearchModel
    rw [hxs]
    exact ⟨rfl, by simp⟩

/-- Witness for C7 at a concrete reply that parses to an object: the
unexpected-format error is thrown. -/
theorem runAutomatedSearch_format_contract_witness :
    runAutomatedSearchModel ("\x7b\"a\":1\x7d".data) constDocId =
      Except.error unexpectedFormatMsg :=
  (runAutomatedSearch_format_contract ("\x7b\"a\":1\x7d".data) constDocId).1.mpr
    ⟨Json.obj [(['a'], Json.num 1)], rfl, rfl⟩

theorem isDigitChar_ne_backtick {c : Char} (h : isDigitChar c = true) : c ≠ '\x60' := by
  intro he
  subst he
  exact absurd h (by decide)

theorem fence_no_pref {c : Char} (t : List Char) (hc : c ≠ '\x60') :
    fenceOpen.isPrefixOf (c :: t) = false := by
  cases hres : fenceOpen.isPrefixOf (c :: t) with
  | false => rfl
  | true =>
    exfalso
    rw [show fenceOpen = '\x60' :: ("\x60\x60json\n".data) from rfl] at hres
    simp only [List.isPrefixOf, Bool.and_eq_true, beq_iff_eq] at hres
    exact hc hres.1.symm

theorem extractScan_clean (cs : List Char)
    (h : ∀ c ∈ cs, c ≠ '\x7b' ∧ c ≠ '[' ∧ c ≠ '\x60') : extractScan cs = none := by
  induction cs with
  | nil => rfl
  | cons c t ih =>
    obtain ⟨h1, h2, h3⟩ := h c (by simp)
    rw [extractScan.eq_def]
    simp [fence_no_pref t h3, h1, h2]
    exact ih fun d hd => h d (by simp [hd])

theorem takeThroughLast_append_last (c : Char) (l : List Char) :
    takeThroughLast c (l ++ [c]) = l ++ [c] := by
  unfold takeThroughLast
  simp [List.dropWhile_cons]

theorem extractScan_stringify_arr (xs : List Json) :
    extractScan (jsonStringify (Json.arr xs)) = some (jsonStringify (Json.arr xs)) := by
  rw [jsonStringify_arr, extractScan.eq_def]
  simp only [fence_no_pref _ (by decide : ('[' : Char) ≠ '\x60'), Bool.false_eq_true,
    if_false]
  simp [takeThroughLast_append_last]

theorem extractScan_stringify_obj (kvs : List (List Char × Json)) :
    extractScan (jsonStringify (Json.obj kvs)) = some (jsonStringify (Json.obj kvs)) := by
  rw [jsonStringify_obj, extractScan.eq_def]
  simp only [fence_no_pref _ (by decide : ('\x7b' : Char) ≠ '\x60'), Bool.false_eq_true,
    if_false]
  simp [takeThroughLast_append_last]

theorem stringify_num_clean (n : Int) :
    ∀ c ∈ jsonStringify (Json.num n), c ≠ '\x7b' ∧ c ≠ '[' ∧ c ≠ '\x60' := by
  intro c hc
  rw [jsonStringify_num] at hc
  cases n with
  | ofNat m =>
    have hc' : c ∈ natDigits m := hc
    have hd := natDigits_digits m c hc'
    obtain ⟨_, _, _, _, _, _, _, _, hb1, hb2, _⟩ := isDigitChar_props hd
    exact ⟨hb2, hb1, isDigitChar_ne_backtick hd⟩
  | negSucc k =>
    have hc' : c ∈ '-' :: natDigits (k + 1) := hc
    rcases List.mem_cons.mp hc' with hm | hm
    · subst hm
      refine ⟨by decide, by decide, by decide⟩
    · have hd := natDigits_digits (k + 1) c hm
      obtain ⟨_, _, _, _, _, _, _, _, hb1, hb2, _⟩ := isDigitChar_props hd
      exact ⟨hb2, hb1, isDigitChar_ne_backtick hd⟩

/-- C3 (amended): the serialize-then-extract-then-parse round trip holds
for every value that is not a string: for objects and arrays the regex
captures exactly the whole serialized text (first brace or bracket at
position zero, greedy to the final closing delimiter), and for the other
values the regex does not match, so the whole text is parsed directly.
For a string value the serialized text can itself contain a brace or
bracket pair, in which case the regex captures a fragment and the result
differs from the original value. -/
theorem parseLLMJson_stringify_roundtrip (x : Json) (h : x.isStr = false) :
    parseLLMJson (jsonStringify x) = .ok x := by
  cases x with
  | str s => simp [Json.isStr] at h
  | null =>
    have hscan : extractScan (jsonStringify Json.null) = none :=
      extractScan_clean _ (by rw [jsonStringify_null]; decide)
    unfold parseLLMJson
    rw [hscan, jsonParse_stringify]
  | bool b =>
    cases b with
    | true =>
      have hscan : extractScan (jsonStringify (Json.bool true)) = none :=
        extractScan_clean _ (by rw [jsonStringify_true]; decide)
      unfold parseLLMJson
      rw [hscan, jsonParse_stringify]
    | false =>
      have hscan : extractScan (jsonStringify (Json.bool false)) = none :=
        extractScan_clean _ (by rw [jsonStringify_false]; decide)
      unfold parseLLMJson
      rw [hscan, jsonParse_stringify]
  | num n =>
    have hscan : extractScan (jsonStringify (Json.num n)) = none :=
      extractScan_clean _ (stringify_num_clean n)
    unfold parseLLMJson
    rw [hscan, jsonParse_stringify]
  | arr xs =>
    have hemp : (jsonStringify (Json.arr xs)).isEmpty = false := by
      rw [jsonStringify_arr]
      rfl
    unfold parseLLMJson
    rw [extractScan_stringify_arr xs]
    show (if (jsonStringify (Json.arr xs)).isEmpty then
        match jsonParse (jsonStringify (Json.arr xs)) with
        | some v => Except.ok v
        | none => Except.error malformedMsg
      else
        match jsonParse (jsonStringify (Json.arr xs)) with
        | some v => Except.ok v
        | none => Except.error malformedMsg) = Except.ok (Json.arr xs)
    rw [jsonParse_stringify]
    simp [hemp]
  | obj kvs =>
    have hemp : (jsonStringify (Json.obj kvs)).isEmpty = false := by
      rw [jsonStringify_obj]
      rfl
    unfold parseLLMJson
    rw [extractScan_stringify_obj kvs]
    show (if (jsonStringify (Json.obj kvs)).isEmpty then
        match jsonParse (jsonStringify (Json.obj kvs)) with
        | some v => Except.ok v
        | none => Except.error malformedMsg
      else
        match jsonParse (jsonStringify (Json.obj kvs)) with
        | some v => Except.ok v
        | none => Except.error malformedMsg) = Except.ok (Json.obj kvs)
    rw [jsonParse_stringify]
    simp [hemp]

/-- C3 (counterexample): the round trip fails on the two-character string
holding an opening and a closing brace. Its serialization is the
four-character text quote-brace-brace-quote; the bare-object regex
alternative matches the inner braces, so `parseLLMJson` parses the
capture and returns the empty object instead of the original string. -/
theorem parseLLMJson_stringify_counterexample :
    jsonStringify (Json.str ['\x7b', '\x7d']) = ['"', '\x7b', '\x7d', '"'] ∧
    parseLLMJson (jsonStringify (Json.str ['\x7b', '\x7d'])) = Except.ok (Json.obj []) ∧
    parseLLMJson (jsonStringify (Json.str ['\x7b', '\x7d'])) ≠
      Except.ok (Json.str ['\x7b', '\x7d']) := by
  have hs : jsonStringify (Json.str ['\x7b', '\x7d']) = ['"', '\x7b', '\x7d', '"'] := by
    rw [jsonStringify_str]
    rfl
  refine ⟨hs, ?_, ?_⟩
  · rw [hs]
    rfl
  · rw [hs]
    intro hcontra
    have heval : parseLLMJson (['"', '\x7b', '\x7d', '"']) = Except.ok (Json.obj []) := rfl
    rw [heval] at hcontra
    exact Json.noConfusion (Except.ok.inj hcontra)

/-- Witness for the amended C3 at a concrete object value. -/
theorem parseLLMJson_stringify_roundtrip_witness :
    (Json.obj [(['a'], Json.bool true)]).isStr = false ∧
    parseLLMJson (jsonStringify (Json.obj [(['a'], Json.bool true)])) =
      Except.ok (Json.obj [(['a'], Json.bool true)]) :=
  ⟨rfl, parseLLMJson_stringify_roundtrip _ rfl⟩

theorem splitAtSeq_cons (pat : List Char) (c : Char) (t : List Char) :
    splitAtSeq pat (c :: t) =
      if pat.isPrefixOf (c :: t) then some ([], (c :: t).drop pat.length)
      else (splitAtSeq pat t).map fun p => (c :: p.1, p.2) := by
  rw [splitAtSeq.eq_def]

theorem splitAtSeq_none_no_pref (pat : List Char) (hpat : pat ≠ []) :
    ∀ cs : List Char, splitAtSeq pat cs = none →
    ∀ i, pat.isPrefixOf (cs.drop i) = false := by
  intro cs
  induction cs with
  | nil =>
    intro _ i
    rw [List.drop_nil]
    rcases pat with _ | ⟨p, ps⟩
    · exact absurd rfl hpat
    · rfl
  | cons c t ih =>
    intro h i
    rw [splitAtSeq_cons] at h
    by_cases hp : pat.isPrefixOf (c :: t) = true
    · rw [if_pos hp] at h
      exact Option.noConfusion h
    · rw [if_neg hp] at h
      have ht : splitAtSeq pat t = none := by
        rcases hres : splitAtSeq pat t with _ | p
        · rfl
        · rw [hres] at h
          exact Option.noConfusion h
      cases i with
      | zero =>
        rw [List.drop_zero]
        cases hb : pat.isPrefixOf (c :: t) with
        | false => rfl
        | true => exact absurd hb hp
      | succ j =>
        rw [List.drop_succ_cons]
        exact ih ht j

theorem splitAtSeq_exact (pat b : List Char) (hpat : pat ≠ []) :
    ∀ a : List Char, (∀ i < a.length, pat.isPrefixOf ((a ++ pat ++ b).drop i) = false) →
    splitAtSeq pat (a ++ pat ++ b) = some (a, b) := by
  intro a
  induction a with
  | nil =>
    intro _
    rw [List.nil_append]
    rcases he : pat with _ | ⟨p, ps⟩
    · exact absurd he hpat
    · rw [← he]
      have hx : pat ++ b = p :: (ps ++ b) := by
        rw [he, List.cons_append]
      rw [hx, splitAtSeq_cons, ← hx,
        if_pos (List.isPrefixOf_iff_prefix.mpr (List.prefix_append _ _)),
        List.drop_left]
  | cons x a ih =>
    intro hno
    have h0 := hno 0 (by simp)
    rw [List.drop_zero] at h0
    have hx : (x :: a) ++ pat ++ b = x :: (a ++ pat ++ b) := by
      simp
    rw [hx] at h0
    rw [hx, splitAtSeq_cons,
      if_neg (fun hc => by rw [hc] at h0; exact Bool.noConfusion h0),
      ih fun i hi => by
        have := hno (i + 1) (by simp; omega)
        rw [hx, List.drop_succ_cons] at this
        exact this]
    rfl

theorem isPrefixOf_append_left {p u w : List Char} (h : p.isPrefixOf (u ++ w) = true)
    (hlen : p.length ≤ u.length) : p.isPrefixOf u = true := by
  rw [List.isPrefixOf_iff_prefix] at h ⊢
  rw [List.prefix_iff_eq_take] at h
  rw [List.take_append_of_le_length hlen] at h
  rw [h]
  exact List.take_prefix _ _

theorem fenceClose_getElem : fenceClose[0]? = some '\n' ∧ fenceClose[1]? = some '\x60' ∧
    fenceClose[2]? = some '\x60' ∧ fenceClose[3]? = some '\x60' ∧ fenceClose.length = 4 := by
  refine ⟨rfl, rfl, rfl, rfl, rfl⟩

theorem fenceClose_no_overlap (content post : List Char)
    (hc : splitAtSeq fenceClose content = none) :
    ∀ i < content.length,
      fenceClose.isPrefixOf ((content ++ fenceClose ++ post).drop i) = false := by
  intro i hi
  cases hres : fenceClose.isPrefixOf ((content ++ fenceClose ++ post).drop i) with
  | false => rfl
  | true =>
    exfalso
    have hilen : i ≤ content.length := le_of_lt hi
    have hassoc : content ++ fenceClose ++ post = content ++ (fenceClose ++ post) := by
      rw [List.append_assoc]
    have hdrop : (content ++ fenceClose ++ post).drop i =
        content.drop i ++ (fenceClose ++ post) := by
      rw [hassoc, List.drop_append_of_le_length hilen]
    have hlen : (content.drop i).length = content.length - i := List.length_drop i content
    by_cases hk4 : 4 ≤ content.length - i
    · have hres' : fenceClose.isPrefixOf (content.drop i ++ (fenceClose ++ post)) = true := by
        rw [← hdrop]
        exact hres
      have hwithin : fenceClose.isPrefixOf (content.drop i) = true :=
        isPrefixOf_append_left hres' (by rw [hlen]; exact le_trans (by decide) hk4)
      have hnone := splitAtSeq_none_no_pref fenceClose (by decide) content hc i
      rw [hnone] at hwithin
      exact Bool.noConfusion hwithin
    · set k := content.length - i with hkdef
      have hk1 : 1 ≤ k := by omega
      have hk3 : k ≤ 3 := by omega
      obtain ⟨tail, htail⟩ := List.isPrefixOf_iff_prefix.mp hres
      have hleft : ((content ++ fenceClose ++ post).drop i)[k]? = fenceClose[k]? := by
        rw [← htail]
        exact List.getElem?_append_left (by rw [fenceClose_getElem.2.2.2.2]; omega)
      have hright : ((content ++ fenceClose ++ post).drop i)[k]? = some '\n' := by
        rw [hdrop, List.getElem?_append_right (by rw [hlen])]
        rw [hlen, Nat.sub_self]
        rw [List.getElem?_append_left (show 0 < fenceClose.length by decide)]
        exact fenceClose_getElem.1
      rw [hright] at hleft
      interval_cases k
      · exact absurd hleft (by decide)
      · exact absurd hleft (by decide)
      · exact absurd hleft (by decide)

theorem extractScan_cons (c : Char) (t : List Char) :
    extractScan (c :: t) =
      if fenceOpen.isPrefixOf (c :: t) then
        match splitAtSeq fenceClose ((c :: t).drop fenceOpen.length) with
        | some p => some p.1
        | none => extractScan t
      else if c = '\x7b' then
        if '\x7d' ∈ t then some ('\x7b' :: takeThroughLast '\x7d' t) else extractScan t
      else if c = '[' then
        if ']' ∈ t then some ('[' :: takeThroughLast ']' t) else extractScan t
      else extractScan t := by
  rw [extractScan.eq_def]

theorem extractScan_fence_at (content post : List Char)
    (hnc : splitAtSeq fenceClose content = none) :
    extractScan (fenceOpen ++ (content ++ (fenceClose ++ post))) = some content := by
  have hx : fenceOpen ++ (content ++ (fenceClose ++ post)) =
      '\x60' :: ("\x60\x60json\n".data ++ (content ++ (fenceClose ++ post))) := rfl
  rw [hx, extractScan_cons, ← hx,
    if_pos (List.isPrefixOf_iff_prefix.mpr (List.prefix_append _ _)),
    List.drop_left, ← List.append_assoc content fenceClose post,
    splitAtSeq_exact fenceClose post (by decide) content
      (fenceClose_no_overlap content post hnc)]

theorem extractScan_fence (pre content post : List Char)
    (hpre : ∀ c ∈ pre, c ≠ '\x7b' ∧ c ≠ '[' ∧ c ≠ '\x60')
    (hnc : splitAtSeq fenceClose content = none) :
    extractScan (pre ++ (fenceOpen ++ (content ++ (fenceClose ++ post)))) = some content := by
  induction pre with
  | nil =>
    rw [List.nil_append]
    exact extractScan_fence_at content post hnc
  | cons c t ih =>
    obtain ⟨h1, h2, h3⟩ := hpre c (by simp)
    rw [List.cons_append, extractScan_cons]
    simp only [fence_no_pref _ h3, Bool.false_eq_true, if_false, h1, h2, if_neg,
      ite_false]
    exact ih fun d hd => hpre d (by simp [hd])

/-- C5: amended. `parseLLMJson` runs a single regex whose leftmost match
wins, so fenced recovery is only guaranteed when no bare-object or
bare-array alternative can match before the fence: when the prefix before
the fence holds no opening brace, bracket or backtick, the fenced content
is nonempty and free of closing fences, and it parses as JSON, the result
is exactly that JSON. When the chosen capture fails to parse, the error
carries only a fixed message, not the raw text, and no later strategy is
tried (see the counterexample). -/
theorem parseLLMJson_fence_recovery (pre content post : List Char) (v : Json)
    (hpre : ∀ c ∈ pre, c ≠ '\x7b' ∧ c ≠ '[' ∧ c ≠ '\x60')
    (hne : content ≠ [])
    (hnc : splitAtSeq fenceClose content = none)
    (hparse : jsonParse content = some v) :
    parseLLMJson (pre ++ (fenceOpen ++ (content ++ (fenceClose ++ post)))) = .ok v := by
  have hemp : content.isEmpty = false := by
    cases content with
    | nil => exact absurd rfl hne
    | cons c t => rfl
  unfold parseLLMJson
  simp only [extractScan_fence pre content post hpre hnc, hemp, Bool.false_eq_true,
    if_false, hparse]

/-- C5: counterexample to the claimed strategy order. On input
`"\x7bx\x7d\n" ++ "\x60\x60\x60json\n[1]\n\x60\x60\x60"` the bare-object
alternative matches at position 0, before the fence; its capture
`"\x7bx\x7d"` is not valid JSON, so `parseLLMJson` throws the fixed
malformed-response message instead of recovering the fenced `[1]`, and the
error does not carry the raw text. -/
theorem parseLLMJson_fence_counterexample :
    parseLLMJson ("\x7bx\x7d\n".data ++ (fenceOpen ++ ("[1]".data ++ (fenceClose ++ [])))) =
      .error malformedMsg ∧
    parseLLMJson ("\x7bx\x7d\n".data ++ (fenceOpen ++ ("[1]".data ++ (fenceClose ++ [])))) ≠
      .ok (Json.arr [Json.num 1]) := by
  refine ⟨rfl, fun h => ?_⟩
  have h2 : Except.error (ε := String) malformedMsg = Except.ok (Json.arr [Json.num 1]) := h
  exact Except.noConfusion h2

/-- Witness: the fenced recovery theorem applied at the specification
example, a fenced object after a clean prefix and before a suffix. -/
theorem parseLLMJson_fence_recovery_witness :
    parseLLMJson ("prefix\n".data ++
        (fenceOpen ++ ("\x7b\"a\":1\x7d".data ++ (fenceClose ++ "\nsuffix".data)))) =
      .ok (Json.obj [("a".data, Json.num 1)]) :=
  parseLLMJson_fence_recovery "prefix\n".data "\x7b\"a\":1\x7d".data "\nsuffix".data
    (Json.obj [("a".data, Json.num 1)]) (by decide) (by decide) (by rfl) (by rfl)
